import Mathlib

/-!
Verification of the ordered-registry structure `RollbackOrdered` from
`src/rollback.rs`.

Modelling choices (shallow embedding):
* A marker (`Rollback`, a wrapper around an entity id that is compared,
  hashed and tested for equality purely by its underlying value) is
  modelled as a `Nat`.
* The field `order : HashMap<Rollback, usize>` is modelled as an
  association list `List (Nat × Nat)` with an overwriting insert
  (`mapInsert`) and a lookup (`mapGet`), matching `HashMap::insert` and
  `HashMap::get`.
* The field `sorted : Vec<Rollback>` is modelled as a `List Nat`;
  `Vec::swap` becomes `listSwap`.
* `RollbackOrdered::order` uses `.expect(...)`, which panics when the
  marker has no entry; the model returns `Option Nat`, where `none`
  models the panic.
* The backward `for index in (1..len).rev()` scan of
  `RollbackOrdered::push`, with its `break`, is modelled by the
  recursion `pushLoop` on the running index.
-/

/-- Overwriting insert of key `k` with value `v`, modelling
`HashMap::insert` on the `order` map. -/
def mapInsert (k v : Nat) : List (Nat × Nat) → List (Nat × Nat)
  | [] => [(k, v)]
  | (k', v') :: rest => if k' = k then (k, v) :: rest else (k', v') :: mapInsert k v rest

/-- Lookup of key `k`, modelling `HashMap::get` on the `order` map. -/
def mapGet (k : Nat) : List (Nat × Nat) → Option Nat
  | [] => none
  | (k', v) :: rest => if k' = k then some v else mapGet k rest

/-- `Vec::swap i j`: exchange the elements at positions `i` and `j`. -/
def listSwap (l : List Nat) (i j : Nat) : List Nat :=
  (l.set i (l.getD j 0)).set j (l.getD i 0)

/-- The `RollbackOrdered` resource: `order` maps each marker to its index,
`sorted` is the vector of markers kept in sorted order. -/
structure RollbackOrdered where
  order : List (Nat × Nat)
  sorted : List Nat
deriving DecidableEq

/-- The backward restabilization scan of `RollbackOrdered::push`:
`for index in (1..self.sorted.len()).rev()`, breaking (and recording the
index of the element at `index`) as soon as
`self.sorted[index] >= self.sorted[index - 1]`, otherwise swapping the two
and recording the index of the marker that moved up into position `index`.
The argument is the running index; `0` means the range is exhausted. -/
def pushLoop : Nat → RollbackOrdered → RollbackOrdered
  | 0, s => s
  | i + 1, s =>
    if s.sorted.getD i 0 ≤ s.sorted.getD (i + 1) 0 then
      { order := mapInsert (s.sorted.getD (i + 1) 0) (i + 1) s.order, sorted := s.sorted }
    else
      pushLoop i
        { order := mapInsert ((listSwap s.sorted (i + 1) i).getD (i + 1) 0) (i + 1) s.order,
          sorted := listSwap s.sorted (i + 1) i }

/-- `RollbackOrdered::push`: append the marker at the back of `sorted`;
if it is the only element record index `0`, otherwise run the backward
scan starting at the last index. -/
def push (r : Nat) (s : RollbackOrdered) : RollbackOrdered :=
  if (s.sorted ++ [r]).length = 1 then
    { order := mapInsert r 0 s.order, sorted := s.sorted ++ [r] }
  else
    pushLoop ((s.sorted ++ [r]).length - 1) { order := s.order, sorted := s.sorted ++ [r] }

/-- `RollbackOrdered::order`: look the marker up in the `order` map;
`none` models the `expect` panic for a marker without an entry. -/
def order_of (s : RollbackOrdered) (r : Nat) : Option Nat :=
  mapGet r s.order

/-- `RollbackOrdered::iter_sorted`, collected into a list: it simply
yields the elements of `sorted` front to back. -/
def iter_sorted (s : RollbackOrdered) : List Nat :=
  s.sorted

/-- The registry in its initial (`Default`) state: both containers empty. -/
def emptyRegistry : RollbackOrdered :=
  { order := [], sorted := [] }

/-- Register the markers of `l` one at a time, in order, starting from the
empty registry (each `AddRollbackCommand` application performs one `push`). -/
def registerAll (l : List Nat) : RollbackOrdered :=
  l.foldl (fun s r => push r s) emptyRegistry

/-- Reference recursion used to reason about `pushLoop`.  Its first
argument is the reversed prefix of the scanned vector in front of the
bubbling element `x`; `S` is the (already scanned) suffix behind `x`. -/
def loopSpecRev : List Nat → Nat → List Nat → List (Nat × Nat) → RollbackOrdered
  | [], x, S, ord => { order := ord, sorted := x :: S }
  | b :: Prev, x, S, ord =>
    if b ≤ x then
      { order := mapInsert x (Prev.length + 1) ord,
        sorted := (b :: Prev).reverse ++ x :: S }
    else
      loopSpecRev Prev x (b :: S) (mapInsert b (Prev.length + 1) ord)

example : (registerAll [5, 3, 8, 1]).sorted = [1, 3, 5, 8] := by decide
example : order_of (registerAll [5, 3, 8, 1]) 5 = some 2 := by decide
example : order_of (registerAll [10, 5]) 5 = none := by decide
example : order_of (registerAll [10, 5]) 10 = some 1 := by decide

/-! ### List indexing helpers -/

theorem getD_append_len (P : List Nat) (a : Nat) (S : List Nat) :
    (P ++ a :: S).getD P.length 0 = a := by
  induction P with
  | nil => rfl
  | cons p P ih => simpa using ih

theorem getD_append_len_succ (P : List Nat) (a c : Nat) (S : List Nat) :
    (P ++ a :: c :: S).getD (P.length + 1) 0 = c := by
  induction P with
  | nil => rfl
  | cons p P ih => simpa using ih

theorem set_append_len (P : List Nat) (a c : Nat) (S : List Nat) :
    (P ++ a :: S).set P.length c = P ++ c :: S := by
  induction P with
  | nil => rfl
  | cons p P ih => simp [ih]

theorem set_append_len_succ (P : List Nat) (a b c : Nat) (S : List Nat) :
    (P ++ a :: b :: S).set (P.length + 1) c = P ++ a :: c :: S := by
  induction P with
  | nil => rfl
  | cons p P ih => simp [ih]

theorem listSwap_adj (P : List Nat) (a c : Nat) (S : List Nat) :
    listSwap (P ++ a :: c :: S) (P.length + 1) P.length = P ++ c :: a :: S := by
  unfold listSwap
  rw [getD_append_len, getD_append_len_succ, set_append_len_succ]
  exact set_append_len P a c (a :: S)

/-! ### Association-list map helpers -/

theorem mapGet_mapInsert_self (k v : Nat) (m : List (Nat × Nat)) :
    mapGet k (mapInsert k v m) = some v := by
  induction m with
  | nil => simp [mapInsert, mapGet]
  | cons p rest ih =>
    obtain ⟨k', v'⟩ := p
    by_cases h : k' = k <;> simp [mapInsert, mapGet, h, ih]

theorem mapGet_mapInsert_ne (k k' v : Nat) (m : List (Nat × Nat)) (h : k' ≠ k) :
    mapGet k (mapInsert k' v m) = mapGet k m := by
  induction m with
  | nil => simp [mapInsert, mapGet, h]
  | cons p rest ih =>
    obtain ⟨a, b⟩ := p
    by_cases ha : a = k'
    · subst ha
      simp [mapInsert, mapGet, h, ih]
    · by_cases hk : a = k <;> simp [mapInsert, mapGet, h, Ne.symm h, ha, hk, ih]

/-! ### The scan `pushLoop` agrees with the reference recursion -/

theorem pushLoop_eq (Pr : List Nat) (x : Nat) (S : List Nat) (ord : List (Nat × Nat)) :
    pushLoop Pr.length { order := ord, sorted := Pr.reverse ++ x :: S } =
      loopSpecRev Pr x S ord := by
  induction Pr generalizing S ord with
  | nil => rfl
  | cons b Prev ih =>
    have hsorted : (b :: Prev).reverse ++ x :: S = Prev.reverse ++ b :: x :: S := by
      simp
    have hb : (Prev.reverse ++ b :: x :: S).getD Prev.length 0 = b := by
      simpa using getD_append_len Prev.reverse b (x :: S)
    have hx : (Prev.reverse ++ b :: x :: S).getD (Prev.length + 1) 0 = x := by
      simpa using getD_append_len_succ Prev.reverse b x S
    have hswap : listSwap (Prev.reverse ++ b :: x :: S) (Prev.length + 1) Prev.length =
        Prev.reverse ++ x :: b :: S := by
      simpa using listSwap_adj Prev.reverse b x S
    have hx' : (Prev.reverse ++ x :: b :: S).getD (Prev.length + 1) 0 = b := by
      simpa using getD_append_len_succ Prev.reverse x b S
    show pushLoop (Prev.length + 1) { order := ord, sorted := (b :: Prev).reverse ++ x :: S } = _
    rw [hsorted]
    by_cases hbx : b ≤ x
    · simp only [pushLoop, hb, hx, if_pos hbx, loopSpecRev, hsorted]
    · simp only [pushLoop, hb, hx, if_neg hbx, hswap, hx', loopSpecRev]
      exact ih (b :: S) (mapInsert b (Prev.length + 1) ord)

/-! ### Characterizing `push` -/

theorem push_nil (x : Nat) (ord : List (Nat × Nat)) :
    push x { order := ord, sorted := [] } =
      { order := mapInsert x 0 ord, sorted := [x] } := rfl

theorem push_eq_loopSpecRev (x : Nat) (s : RollbackOrdered) (hA : s.sorted ≠ []) :
    push x s = loopSpecRev s.sorted.reverse x [] s.order := by
  obtain ⟨ord, A⟩ := s
  simp only at hA ⊢
  have h0 : A.length ≠ 0 := fun h => hA (List.length_eq_zero.mp h)
  have hlen : (A ++ [x]).length ≠ 1 := by
    simp only [List.length_append, List.length_cons, List.length_nil]
    omega
  unfold push
  simp only [if_neg hlen]
  have h1 : (A ++ [x]).length - 1 = A.reverse.length := by simp
  have h2 : A ++ [x] = A.reverse.reverse ++ x :: ([] : List Nat) := by simp
  rw [h1, h2]
  exact pushLoop_eq A.reverse x [] ord

theorem loopSpecRev_perm (Pr : List Nat) (x : Nat) (S : List Nat) (ord : List (Nat × Nat)) :
    (loopSpecRev Pr x S ord).sorted.Perm (Pr.reverse ++ x :: S) := by
  induction Pr generalizing S ord with
  | nil => simp [loopSpecRev]
  | cons b Prev ih =>
    by_cases hbx : b ≤ x
    · simp [loopSpecRev, hbx]
    · simp only [loopSpecRev, if_neg hbx]
      refine (ih (b :: S) _).trans ?_
      have hstep : (Prev.reverse ++ x :: b :: S).Perm (Prev.reverse ++ b :: x :: S) :=
        List.Perm.append_left _ (List.Perm.swap b x S)
      have heq : Prev.reverse ++ b :: x :: S = (b :: Prev).reverse ++ x :: S := by simp
      rw [heq] at hstep
      exact hstep

/-- The multiset of markers after a `push` is the old one plus the new marker. -/
theorem push_perm (x : Nat) (s : RollbackOrdered) :
    (push x s).sorted.Perm (x :: s.sorted) := by
  obtain ⟨ord, A⟩ := s
  by_cases hA : A = []
  · subst hA
    simp [push_nil]
  · rw [push_eq_loopSpecRev x _ hA]
    have h := loopSpecRev_perm A.reverse x [] ord
    simp only [List.reverse_reverse] at h
    exact h.trans (List.perm_append_singleton x A)

theorem loopSpecRev_sorted (Pr : List Nat) (x : Nat) :
    ∀ (S : List Nat) (ord : List (Nat × Nat)),
      (Pr.reverse ++ S).Pairwise (· ≤ ·) → (∀ y ∈ S, x < y) →
      (loopSpecRev Pr x S ord).sorted.Pairwise (· ≤ ·) := by
  induction Pr with
  | nil =>
    intro S ord h1 h2
    simp only [loopSpecRev]
    exact List.pairwise_cons.mpr ⟨fun y hy => (h2 y hy).le, by simpa using h1⟩
  | cons b Prev ih =>
    intro S ord h1 h2
    by_cases hbx : b ≤ x
    · simp only [loopSpecRev, if_pos hbx, List.reverse_cons]
      have h1' : ((Prev.reverse ++ [b]) ++ S).Pairwise (· ≤ ·) := by simpa using h1
      rw [List.pairwise_append] at h1'
      obtain ⟨hL, hS, hLS⟩ := h1'
      rw [List.pairwise_append]
      refine ⟨hL, List.pairwise_cons.mpr ⟨fun y hy => (h2 y hy).le, hS⟩, ?_⟩
      intro a ha y hy
      have hax : a ≤ x := by
        rcases List.mem_append.mp ha with h | h
        · have hab : a ≤ b := by
            rw [List.pairwise_append] at hL
            exact hL.2.2 a h b (List.mem_singleton_self b)
          exact hab.trans hbx
        · rw [List.mem_singleton] at h
          subst h
          exact hbx
      rcases List.mem_cons.mp hy with h | h
      · subst h
        exact hax
      · exact hLS a ha y h
    · simp only [loopSpecRev, if_neg hbx]
      refine ih (b :: S) _ (by simpa [List.append_assoc] using h1) ?_
      intro y hy
      rcases List.mem_cons.mp hy with h | h
      · subst h
        exact lt_of_not_le hbx
      · exact h2 y h

theorem push_sorted (x : Nat) (s : RollbackOrdered)
    (h : s.sorted.Pairwise (· ≤ ·)) : (push x s).sorted.Pairwise (· ≤ ·) := by
  obtain ⟨ord, A⟩ := s
  cases A with
  | nil => simp [push_nil]
  | cons a A =>
    rw [push_eq_loopSpecRev x ⟨ord, a :: A⟩ (by simp)]
    refine loopSpecRev_sorted (a :: A).reverse x [] ord ?_ ?_
    · simpa using h
    · intro y hy
      simp at hy

theorem foldl_push_sorted (l : List Nat) :
    ∀ s : RollbackOrdered, s.sorted.Pairwise (· ≤ ·) →
      (l.foldl (fun s r => push r s) s).sorted.Pairwise (· ≤ ·) := by
  induction l with
  | nil => intro s hs; exact hs
  | cons a l ih => intro s hs; exact ih (push a s) (push_sorted a s hs)

/-- The `sorted` vector is in non-decreasing order after any run of
registrations. -/
theorem registerAll_sorted (l : List Nat) : (registerAll l).sorted.Pairwise (· ≤ ·) :=
  foldl_push_sorted l emptyRegistry (by simp [emptyRegistry])

theorem foldl_push_perm (l : List Nat) :
    ∀ s : RollbackOrdered, (l.foldl (fun s r => push r s) s).sorted.Perm (l ++ s.sorted) := by
  induction l with
  | nil => intro s; simp
  | cons a l ih =>
    intro s
    refine (ih (push a s)).trans ?_
    refine (List.Perm.append_left l (push_perm a s)).trans ?_
    exact List.perm_middle

/-- The markers in `sorted` after registering `l` are exactly those of `l`. -/
theorem registerAll_perm (l : List Nat) : (registerAll l).sorted.Perm l := by
  have h := foldl_push_perm l emptyRegistry
  simpa [registerAll, emptyRegistry] using h

/-! ### Keys of the `order` map -/

theorem loopSpecRev_get_none (Pr : List Nat) (x m : Nat) (hx : m ≠ x) :
    ∀ (S : List Nat) (ord : List (Nat × Nat)),
      mapGet m ord = none → m ∉ Pr →
      mapGet m (loopSpecRev Pr x S ord).order = none := by
  induction Pr with
  | nil => intro S ord hm _; simpa [loopSpecRev] using hm
  | cons b Prev ih =>
    intro S ord hm hPr
    have hmb : m ≠ b := fun h => hPr (by rw [h]; exact List.mem_cons_self b Prev)
    by_cases hbx : b ≤ x
    · simp only [loopSpecRev, if_pos hbx]
      rw [mapGet_mapInsert_ne m x (Prev.length + 1) ord (Ne.symm hx)]
      exact hm
    · simp only [loopSpecRev, if_neg hbx]
      refine ih (b :: S) _ ?_ (fun h => hPr (List.mem_cons_of_mem b h))
      rw [mapGet_mapInsert_ne m b (Prev.length + 1) ord (Ne.symm hmb)]
      exact hm

theorem push_get_ne (x m : Nat) (s : RollbackOrdered) (hx : m ≠ x)
    (hms : m ∉ s.sorted) (h : mapGet m s.order = none) :
    mapGet m (push x s).order = none := by
  obtain ⟨ord, A⟩ := s
  cases A with
  | nil =>
    simp only [push_nil]
    rw [mapGet_mapInsert_ne m x 0 ord (Ne.symm hx)]
    exact h
  | cons a A =>
    rw [push_eq_loopSpecRev x ⟨ord, a :: A⟩ (by simp)]
    refine loopSpecRev_get_none (a :: A).reverse x m hx [] ord h ?_
    simp only [List.mem_reverse]
    exact hms

theorem foldl_push_get_none (l : List Nat) (m : Nat) :
    m ∉ l → ∀ s : RollbackOrdered, m ∉ s.sorted → mapGet m s.order = none →
      mapGet m (l.foldl (fun s r => push r s) s).order = none := by
  induction l with
  | nil => intro _ s _ h; exact h
  | cons a l ih =>
    intro hm s h1 h2
    have hma : m ≠ a := fun h => hm (by rw [h]; exact List.mem_cons_self a l)
    have hml : m ∉ l := fun h => hm (List.mem_cons_of_mem a h)
    refine ih hml (push a s) ?_ (push_get_ne a m s hma h1 h2)
    intro hmem
    have hmem' := (push_perm a s).mem_iff.mp hmem
    rcases List.mem_cons.mp hmem' with h | h
    · exact hma h
    · exact h1 h

/-! ### The scan when it stops at a non-greater predecessor -/

theorem loopSpecRev_stop_sorted (G : List Nat) (b x : Nat) (R : List Nat) (hbx : b ≤ x) :
    ∀ (S : List Nat) (ord : List (Nat × Nat)), (∀ g ∈ G, x < g) →
      (loopSpecRev (G ++ b :: R) x S ord).sorted = (b :: R).reverse ++ x :: (G.reverse ++ S) := by
  induction G with
  | nil => intro S ord _; simp [loopSpecRev, hbx]
  | cons g G ih =>
    intro S ord hG
    have hgx : ¬ g ≤ x := not_le.mpr (hG g (List.mem_cons_self g G))
    simp only [List.cons_append, loopSpecRev, if_neg hgx, List.append_eq]
    rw [ih (g :: S) _ (fun y hy => hG y (List.mem_cons_of_mem g hy))]
    simp

theorem loopSpecRev_stop_get (G : List Nat) (b x : Nat) (R : List Nat) (hbx : b ≤ x) :
    ∀ (S : List Nat) (ord : List (Nat × Nat)), (∀ g ∈ G, x < g) →
      mapGet x (loopSpecRev (G ++ b :: R) x S ord).order = some (R.length + 1) := by
  induction G with
  | nil => intro S ord _; simp [loopSpecRev, hbx, mapGet_mapInsert_self]
  | cons g G ih =>
    intro S ord hG
    have hgx : ¬ g ≤ x := not_le.mpr (hG g (List.mem_cons_self g G))
    simp only [List.cons_append, loopSpecRev, if_neg hgx, List.append_eq]
    exact ih (g :: S) _ (fun y hy => hG y (List.mem_cons_of_mem g hy))

/-- Registering a marker at least as large as everything in `sorted` stops the
scan immediately: every other marker's lookup is untouched. -/
theorem push_ge_max_get (x : Nat) (s : RollbackOrdered) (m : Nat)
    (hmx : m ≠ x) (hne : s.sorted ≠ []) (hle : ∀ p ∈ s.sorted, p ≤ x) :
    order_of (push x s) m = order_of s m := by
  obtain ⟨ord, A⟩ := s
  rw [push_eq_loopSpecRev x ⟨ord, A⟩ hne]
  cases hrev : A.reverse with
  | nil =>
    exfalso
    exact hne (by simpa using congrArg List.reverse hrev)
  | cons a T =>
    have hax : a ≤ x := by
      apply hle
      have ha : a ∈ A.reverse := by rw [hrev]; exact List.mem_cons_self a T
      simpa using ha
    simp only [loopSpecRev, if_pos hax]
    unfold order_of
    exact mapGet_mapInsert_ne m x (T.length + 1) ord (Ne.symm hmx)

/-! ### Claims -/

/-- C1: the claimed invariant "for every marker `m` at position `i` of
`sequence`, `index_of[m] == i`" fails on the code: after registering the
distinct markers 10 and 5, marker 5 sits at position 0 of `sorted` but the
`order` map has no entry for it at all (a lookup panics). -/
theorem C1_reverse_mapping_invariant_fails :
    (registerAll [10, 5]).sorted = [5, 10] ∧
    order_of (registerAll [10, 5]) 5 = none := by decide

/-- C2: Scenario 3 fails on the code: after registering 10 then 5,
`order_of 10` is indeed 1, but `order_of 5` does not return 0 — the
`order` map has no entry for 5, so the lookup panics. -/
theorem C2_scenario3_fails :
    order_of (registerAll [10]) 10 = some 0 ∧
    order_of (registerAll [10, 5]) 10 = some 1 ∧
    order_of (registerAll [10, 5]) 5 = none := by decide

/-- C3: the claim that the scan updates `index_of` for the new marker's
final position in every case fails when the scan runs to the front of the
sequence: registering 3 then 1, the swap correctly records index 1 for the
marker 3 that moved up, but no entry is ever written for the new marker 1
at its final position 0. -/
theorem C3_front_reach_missing_final_update :
    (registerAll [3, 1]).sorted = [1, 3] ∧
    order_of (registerAll [3, 1]) 3 = some 1 ∧
    order_of (registerAll [3, 1]) 1 = none := by decide

/-- C4: the claimed cardinality/member-set equality of `index_of` and
`sequence` fails on the code: after registering 7 then 4, `sorted` has two
entries but the `order` map has only one, and the member 4 of `sorted` has
no entry in the map. -/
theorem C4_cardinality_mismatch :
    (registerAll [7, 4]).sorted.length = 2 ∧
    (registerAll [7, 4]).order.length = 1 ∧
    4 ∈ (registerAll [7, 4]).sorted ∧
    order_of (registerAll [7, 4]) 4 = none := by decide

/-- C5: after any sequence of registrations starting from the empty
registry, `sorted` is in non-decreasing order by marker value. -/
theorem C5_sequence_nondecreasing (l : List Nat) :
    (registerAll l).sorted.Pairwise (· ≤ ·) :=
  registerAll_sorted l

/-- C6: looking up a marker that was never registered always fails with
the not-registered condition (modelled as `none`, the panic branch of
`expect`), regardless of which other markers were registered. -/
theorem C6_unregistered_lookup_fails (l : List Nat) (m : Nat) (hm : m ∉ l) :
    order_of (registerAll l) m = none :=
  foldl_push_get_none l m hm emptyRegistry (by simp [emptyRegistry]) rfl

theorem C6_witness :
    (5 ∉ [1, 2, 3]) ∧ order_of (registerAll [1, 2, 3]) 5 = none :=
  ⟨by decide, C6_unregistered_lookup_fails [1, 2, 3] 5 (by decide)⟩

/-- C7: in any registry reached by registering distinct markers,
registering a new marker at least as large as every previously registered
marker leaves the `order_of` result of every previously registered marker
unchanged. -/
theorem C7_stable_under_append (l : List Nat) (_hnd : l.Nodup) (x : Nat)
    (hx : x ∉ l) (hge : ∀ p ∈ l, p ≤ x) (m : Nat) (hm : m ∈ l) :
    order_of (push x (registerAll l)) m = order_of (registerAll l) m := by
  apply push_ge_max_get
  · intro h
    rw [h] at hm
    exact hx hm
  · intro h
    have hlen := (registerAll_perm l).length_eq
    rw [h] at hlen
    have hl : l = [] := List.length_eq_zero.mp hlen.symm
    rw [hl] at hm
    exact absurd hm (List.not_mem_nil m)
  · intro p hp
    exact hge p ((registerAll_perm l).mem_iff.mp hp)

theorem C7_witness :
    ([1, 2].Nodup) ∧ (5 ∉ [1, 2]) ∧ (∀ p ∈ [1, 2], p ≤ 5) ∧ (2 ∈ [1, 2]) ∧
    order_of (push 5 (registerAll [1, 2])) 2 = order_of (registerAll [1, 2]) 2 :=
  ⟨by decide, by decide, by decide, by decide,
    C7_stable_under_append [1, 2] (by decide) 5 (by decide) (by decide) 2 (by decide)⟩

/-- C8: the shift-minimality claim fails on the code: in the reachable
state after registering the distinct markers 3 and 2, the marker 2 has no
entry in `order` at all (its lookup panics), so registering the smaller
marker 1 cannot increase 2's index "by exactly one" — the lookup goes from
a panic to 1; the new marker 1 itself also ends up with no entry. -/
theorem C8_shift_from_missing_entry :
    order_of (registerAll [3, 2]) 2 = none ∧
    order_of (registerAll [3, 2, 1]) 2 = some 1 ∧
    order_of (registerAll [3, 2, 1]) 1 = none := by decide

/-- C9: after registering 2, 1, 3 in that order, iterating the registry
yields exactly the markers 1, 2, 3 in that order (the iterator is the pure
`sorted` list, so every call yields the same finite sequence). -/
theorem C9_iterate_scenario :
    iter_sorted (registerAll [2, 1, 3]) = [1, 2, 3] := by decide

/-- C10: registering a marker `m` a second time, when `m` is present at
position `j = B.length` of `sequence` and every other registered marker is
distinct from `m`, leaves two copies of `m` at the adjacent positions `j`
and `j + 1`, and `order_of m` afterwards returns `j + 1` (the position of
the appended copy). -/
theorem C10_duplicate_registration (l : List Nat) (m : Nat) (B C : List Nat)
    (hs : (registerAll l).sorted = B ++ m :: C) (hB : m ∉ B) (hC : m ∉ C) :
    (push m (registerAll l)).sorted = B ++ m :: m :: C ∧
    (push m (registerAll l)).sorted.count m = 2 ∧
    order_of (push m (registerAll l)) m = some (B.length + 1) := by
  have hsort := registerAll_sorted l
  rw [hs] at hsort
  have hC' : ∀ c ∈ C, m < c := by
    intro c hc
    have hle : m ≤ c := by
      rw [List.pairwise_append] at hsort
      exact (List.pairwise_cons.mp hsort.2.1).1 c hc
    exact lt_of_le_of_ne hle (fun h => hC (by rw [h]; exact hc))
  have hne : (registerAll l).sorted ≠ [] := by
    rw [hs]
    simp
  rw [push_eq_loopSpecRev m (registerAll l) hne, hs]
  have hrev : (B ++ m :: C).reverse = C.reverse ++ m :: B.reverse := by simp
  rw [hrev]
  have hGm : ∀ g ∈ C.reverse, m < g := fun g hg => hC' g (List.mem_reverse.mp hg)
  have hcb : B.count m = 0 := List.count_eq_zero.mpr hB
  have hcc : C.count m = 0 := List.count_eq_zero.mpr hC
  refine ⟨?_, ?_, ?_⟩
  · rw [loopSpecRev_stop_sorted C.reverse m m B.reverse (le_refl m) [] _ hGm]
    simp
  · rw [loopSpecRev_stop_sorted C.reverse m m B.reverse (le_refl m) [] _ hGm]
    simp [List.count_append, List.count_cons, hcb, hcc]
  · unfold order_of
    rw [loopSpecRev_stop_get C.reverse m m B.reverse (le_refl m) [] _ hGm]
    simp

theorem C10_witness :
    ((registerAll [1, 2, 3]).sorted = [1] ++ 2 :: [3]) ∧ (2 ∉ [1]) ∧ (2 ∉ [3]) ∧
    ((push 2 (registerAll [1, 2, 3])).sorted = [1] ++ 2 :: 2 :: [3] ∧
      (push 2 (registerAll [1, 2, 3])).sorted.count 2 = 2 ∧
      order_of (push 2 (registerAll [1, 2, 3])) 2 = some ([1].length + 1)) :=
  ⟨by decide, by decide, by decide,
    C10_duplicate_registration [1, 2, 3] 2 [1] [3] (by decide) (by decide) (by decide)⟩
